import Mathlib

/-!
Shallow embedding of `gaussian_distribution.h` (mixed logit DCM Gaussian
distribution) from the mlpack contrib tree, together with proofs of the
specification's claims about it.

Real numbers (`double`) are modelled by `ℚ`; `arma::vec` by `List ℚ`;
`arma::mat` by a total function `Nat → Nat → ℚ` plus an explicit size
field (the matrix dimension that `arma` tracks); `std::vector<int>` by
`List Nat`.  Out-of-range reads, which the C++ never performs in the
scenarios covered by the claims, default to `0` via `List.getD`.
-/

namespace MixedLogitDCM

/-- State of the shared row-major triangular traversal used by both
`SetupCholeskyFactor_` and `Init` in the source: the local variables
`limit`, `add`, `row_num` and `start` of those loops. -/
structure TravState where
  limit : Nat
  add : Nat
  row_num : Nat
  start : Nat
deriving Repr

/-- One execution of the conditional at the top of the loop body:
`if (i == limit) { limit += add; add--; row_num++; start = i; }`. -/
def stepState (i : Nat) (s : TravState) : TravState :=
  if i = s.limit then
    { limit := s.limit + s.add, add := s.add - 1, row_num := s.row_num + 1, start := i }
  else s

/-- The loop `for i in slots { stepState; payload update }`, abstracted over
the payload update `f`, which receives the slot index and the state after
the conditional (exactly what the C++ loop bodies read). -/
def travLoop {α : Type} (f : Nat → TravState → α → α) : List Nat → TravState → α → α
  | [], _, a => a
  | i :: is, s, a => travLoop f is (stepState i s) (f i (stepState i s) a)

/-- The mutable state bundle `GaussianDistribution::PrivateData`. -/
structure PrivateData where
  cholesky_factor_dimension : Nat
  num_cholesky_factor_entries : Nat
  nonzero_column_indices : List Nat
  start_indices : List Nat
  cached_solution : List ℚ
  cholesky_factor : Nat → Nat → ℚ
  cholesky_factor_n : Nat

/-- Pointwise update of one matrix entry, the effect of
`cholesky_factor_.at(r, c) = v`. -/
def updEntry (M : Nat → Nat → ℚ) (r c : Nat) (v : ℚ) : Nat → Nat → ℚ :=
  fun r' c' => if r' = r ∧ c' = c then v else M r' c'

/-- The body of the `SetupCholeskyFactor_` loop: write
`parameters[dim + i]` into the factor at `(row_num, row_num + i - start)`. -/
def factorWriter (parameters : List ℚ) (dim : Nat) :
    Nat → TravState → (Nat → Nat → ℚ) → (Nat → Nat → ℚ) :=
  fun i s M => updEntry M s.row_num (s.row_num + i - s.start) (parameters.getD (dim + i) 0)

/-- `GaussianDistribution::SetupCholeskyFactor_`: zero the factor, then walk
the triangular slots in row-major order placing
`parameters[dimension + i]` at `(row_num, row_num + i - start)`. -/
def SetupCholeskyFactor_ (parameters : List ℚ) (pd : PrivateData) : PrivateData :=
  let dim := pd.cholesky_factor_dimension
  let M := travLoop (factorWriter parameters dim)
    (List.range pd.num_cholesky_factor_entries)
    { limit := dim, add := dim - 1, row_num := 0, start := 0 }
    (fun _ _ => 0)
  { pd with cholesky_factor := M, cholesky_factor_n := dim }

/-- `GaussianDistribution::SetupDistribution`: delegates to
`SetupCholeskyFactor_`. -/
def SetupDistribution (parameters : List ℚ) (pd : PrivateData) : PrivateData :=
  SetupCholeskyFactor_ parameters pd

/-- Modelled from the spec: the dense linear-algebra primitive
`arma::solve` is an external collaborator, out of scope of this repository
(spec sections 1 and 6) and always invoked here on the upper-triangular
factor.  It is modelled as exact back substitution on the top-left
`n × n` block, failing (spec section 7, SingularFactorError) exactly when
a diagonal entry of that block is zero.  `backSubstFun U b n k` solves for
the last `k` unknowns of `U x = b`. -/
def backSubstFun (U : Nat → Nat → ℚ) (b : Nat → ℚ) (n : Nat) : Nat → Option (Nat → ℚ)
  | 0 => some (fun _ => 0)
  | k + 1 =>
    match backSubstFun U b n k with
    | none => none
    | some x =>
      let i := n - (k + 1)
      if U i i = 0 then none
      else
        some (fun j =>
          if j = i then
            (b i - (List.range n).foldl (fun acc l => if i < l then acc + U i l * x l else acc) 0)
              / (U i i)
          else x j)

/-- Modelled from the spec: the solution list of the `n × n` upper
triangular system `U x = b`, or `none` when a diagonal entry is zero. -/
def backSubst (U : Nat → Nat → ℚ) (b : Nat → ℚ) (n : Nat) : Option (List ℚ) :=
  (backSubstFun U b n n).map (fun x => (List.range n).map x)

/-- `GaussianDistribution::SamplingAccumulatePrecompute`: form
`beta - mean` (the mean is a view of the leading entries of
`parameters`) and cache the solution of the triangular system against the
stored factor.  The solve is fallible (see `backSubst`). -/
def SamplingAccumulatePrecompute (parameters beta_vector : List ℚ)
    (pd : PrivateData) : Option PrivateData :=
  let rhs : Nat → ℚ := fun j => beta_vector.getD j 0 - parameters.getD j 0
  match backSubst pd.cholesky_factor rhs pd.cholesky_factor_n with
  | none => none
  | some x => some { pd with cached_solution := x }

/-- `GaussianDistribution::AttributeGradientWithRespectToParameter`. -/
def AttributeGradientWithRespectToParameter (pd : PrivateData)
    (parameters beta_vector : List ℚ) (row_index col_index : Nat) : ℚ :=
  let num_attributes := beta_vector.length
  if row_index < num_attributes then
    if row_index = col_index then 1 else 0
  else
    let nonzero_column_index := pd.nonzero_column_indices.getD row_index 0
    if nonzero_column_index = col_index then
      pd.cached_solution.getD
        (row_index - pd.start_indices.getD row_index 0 + nonzero_column_index) 0
    else 0

/-- `GaussianDistribution::DrawBeta` with the standard-normal source
injected as `randn` (the source calls `core::math::RandGaussian(1.0)` once
per coordinate): `beta = cholesky_factor * z + mean`. -/
def DrawBeta (pd : PrivateData) (parameters : List ℚ) (randn : Nat → ℚ) : List ℚ :=
  let n := pd.cholesky_factor_n
  (List.range n).map (fun i =>
    (List.range n).foldl (fun acc j => acc + pd.cholesky_factor i j * randn j) 0
      + parameters.getD i 0)

/-- `GaussianDistribution::Init`: reads `attribute_dimensions_in[0]`,
computes the parameter count, sizes and zero-fills both layout tables,
then walks the triangular slots recording `row_num` into
`nonzero_column_indices[dimension + i]` and `dimension + start` into
`start_indices[dimension + i]`; `tableWriter` is the body of that loop. -/
def tableWriter (dim : Nat) :
    Nat → TravState → (List Nat × List Nat) → (List Nat × List Nat) :=
  fun i s p => (p.1.set (dim + i) s.row_num, p.2.set (dim + i) (dim + s.start))

/-- `GaussianDistribution::Init` itself (see `tableWriter`). -/
def Init (attribute_dimensions_in : List Nat) : Nat × PrivateData :=
  let num_attributes_in := attribute_dimensions_in.headD 0
  let num_parameters_out := num_attributes_in * (num_attributes_in + 3) / 2
  let dim := num_attributes_in
  let num_entries := dim * (dim + 1) / 2
  let tables := travLoop (tableWriter dim)
    (List.range num_entries)
    { limit := dim, add := dim - 1, row_num := 0, start := 0 }
    (List.replicate num_parameters_out 0, List.replicate num_parameters_out 0)
  (num_parameters_out,
    { cholesky_factor_dimension := dim,
      num_cholesky_factor_entries := num_entries,
      nonzero_column_indices := tables.1,
      start_indices := tables.2,
      cached_solution := [],
      cholesky_factor := fun _ _ => 0,
      cholesky_factor_n := 0 })

/-- Number of triangular slots strictly before row `r` of the row-major
walk over an upper-triangular `K × K` matrix (row `j` holds `K - j`
slots). -/
def triBase (K : Nat) : Nat → Nat
  | 0 => 0
  | r + 1 => triBase K r + (K - r)

/-- Closed form of the traversal state entering any slot of row `x`. -/
def stateFor (K x : Nat) : TravState :=
  { limit := triBase K (x + 1), add := K - 1 - x, row_num := x, start := triBase K x }

/-- One row of the traversal: fold the payload update over the slots of
row `x` with the (constant) in-row state. -/
def rowFold {α : Type} (f : Nat → TravState → α → α) (K x : Nat) (a : α) : α :=
  (List.range' (triBase K x) (K - x)).foldl (fun a i => f i (stateFor K x) a) a

/-- Rows `r, r+1, …, r+m-1` of the traversal, each with its closed-form
state. -/
def chunkFold {α : Type} (f : Nat → TravState → α → α) (K : Nat) : Nat → Nat → α → α
  | 0, _, a => a
  | m + 1, r, a => chunkFold f K m (r + 1) (rowFold f K r a)

/-- Row-major packing of the upper entries of row `r` starting at column
`c`: `[fac r c, fac r (c+1), …]` of the given length. -/
def rowEntries (fac : Nat → Nat → ℚ) (r : Nat) : Nat → Nat → List ℚ
  | 0, _ => []
  | len + 1, c => fac r c :: rowEntries fac r len (c + 1)

/-- Row-major packing of the upper-triangular entries of rows
`r, …, r+m-1` of a `K × K` factor. -/
def packTailAux (fac : Nat → Nat → ℚ) (K : Nat) : Nat → Nat → List ℚ
  | 0, _ => []
  | m + 1, r => rowEntries fac r (K - r) r ++ packTailAux fac K m (r + 1)

/-- The parameter vector encoding a mean and an upper-triangular factor:
mean first, then the factor's upper entries row-major (spec section 3). -/
def packParams (K : Nat) (mean : List ℚ) (fac : Nat → Nat → ℚ) : List ℚ :=
  mean ++ packTailAux fac K K 0

/-- The K = 1 context of the spec's end-to-end scenario: dimension 1,
parameters `[mu = 0, c = 2]`, after `SetupDistribution`. -/
def pdK1 : PrivateData := SetupDistribution [0, 2] (Init [1]).2

/-- `pdK1` after `SamplingAccumulatePrecompute` with `beta = [2]`
(cached solution `[1]`). -/
def pdK1s : PrivateData := { pdK1 with cached_solution := [1] }

/-- `pdK1` after `SamplingAccumulatePrecompute` with `beta = [0] = mean`
(cached solution `[0]`). -/
def pdK1z : PrivateData := { pdK1 with cached_solution := [0] }

/-- The upper-triangular factor `[[3, 4], [0, 5]]` of the spec's K = 2
scenario, as a function (lower entries zero). -/
def facEx : Nat → Nat → ℚ := fun r c =>
  if r = 0 ∧ c = 0 then 3 else if r = 0 ∧ c = 1 then 4 else if r = 1 ∧ c = 1 then 5 else 0

/-! Arithmetic facts about the triangular layout. -/

theorem triBase_succ (K r : Nat) : triBase K (r + 1) = triBase K r + (K - r) := rfl

theorem triBase_mono (K : Nat) {r s : Nat} (h : r ≤ s) : triBase K r ≤ triBase K s := by
  induction s with
  | zero =>
    have hr : r = 0 := Nat.le_zero.mp h
    simp [hr]
  | succ s ih =>
    rcases Nat.lt_or_ge r (s + 1) with hlt | hge
    · exact le_trans (ih (Nat.lt_succ_iff.mp hlt)) (Nat.le_add_right _ _)
    · have : r = s + 1 := le_antisymm h hge
      simp [this]

theorem triBase_strict (K : Nat) {r : Nat} (h : r < K) :
    triBase K r < triBase K (r + 1) := by
  rw [triBase_succ]
  omega

theorem two_mul_triBase (K : Nat) : ∀ r, r ≤ K → 2 * triBase K r + r * r = 2 * (r * K) + r := by
  intro r
  induction r with
  | zero => simp [triBase]
  | succ r ih =>
    intro h
    have h' : r ≤ K := Nat.le_of_succ_le h
    have := ih h'
    rw [triBase_succ]
    have hK : r < K := h
    have e1 : (r + 1) * (r + 1) = r * r + 2 * r + 1 := by ring
    have e2 : (r + 1) * K = r * K + K := by ring
    omega

theorem triBase_self (K : Nat) : triBase K K = K * (K + 1) / 2 := by
  have h := two_mul_triBase K K le_rfl
  have e : K * (K + 1) = K * K + K := by ring
  omega

theorem num_parameters_split (K : Nat) : K * (K + 3) / 2 = K + K * (K + 1) / 2 := by
  have h1 : K * (K + 3) = K * (K + 1) + 2 * K := by ring
  have h2 : K * (K + 1) % 2 = 0 := Nat.even_iff.mp (Nat.even_mul_succ_self K)
  omega

/-! Characterization of the traversal loop: it processes row `r`'s slots
with the constant state `stateFor K r`, and crosses into row `r + 1`
exactly at slot `triBase K (r+1)`. -/

theorem travLoop_append {α : Type} (f : Nat → TravState → α → α) :
    ∀ (m i₀ : Nat) (s : TravState) (rest : List Nat) (a : α), i₀ + m ≤ s.limit →
      travLoop f (List.range' i₀ m ++ rest) s a =
        travLoop f rest s ((List.range' i₀ m).foldl (fun a i => f i s a) a) := by
  intro m
  induction m with
  | zero => intro i₀ s rest a _; rfl
  | succ m ih =>
    intro i₀ s rest a h
    have hne : i₀ ≠ s.limit := by omega
    have hstep : stepState i₀ s = s := by simp [stepState, hne]
    rw [List.range'_succ, List.cons_append, travLoop, hstep, List.foldl_cons]
    exact ih (i₀ + 1) s rest (f i₀ s a) (by omega)

theorem stepState_cross (K r : Nat) (h : r + 1 < K) :
    stepState (triBase K (r + 1)) (stateFor K r) = stateFor K (r + 1) := by
  have h2 := triBase_succ K (r + 1)
  simp only [stepState, stateFor]
  rw [if_pos trivial]
  simp only [TravState.mk.injEq, and_true]
  omega

theorem stepState_stay (K r : Nat) (h : r < K) :
    stepState (triBase K r) (stateFor K r) = stateFor K r := by
  have : triBase K r ≠ triBase K (r + 1) := Nat.ne_of_lt (triBase_strict K h)
  simp [stepState, stateFor, this]

theorem travLoop_chunkFold {α : Type} (f : Nat → TravState → α → α) (K : Nat) :
    ∀ (m r : Nat) (a : α), r + m = K →
      travLoop f (List.range' (triBase K r) (triBase K K - triBase K r)) (stateFor K r) a =
        chunkFold f K m r a := by
  intro m
  induction m with
  | zero =>
    intro r a h
    have : triBase K K - triBase K r = 0 := by
      have : r = K := by omega
      simp [this]
    simp [this, chunkFold, travLoop]
  | succ m ih =>
    intro r a h
    have hrK : r < K := by omega
    have hmono : triBase K (r + 1) ≤ triBase K K := triBase_mono K (by omega)
    have hlen : triBase K K - triBase K r =
        (triBase K K - triBase K (r + 1)) + (K - r) := by
      rw [triBase_succ] at hmono ⊢
      omega
    rw [hlen, ← List.range'_append_1, travLoop_append]
    · have hfold : (List.range' (triBase K r) (K - r)).foldl
          (fun a i => f i (stateFor K r) a) a = rowFold f K r a := rfl
      rw [hfold]
      have hnext : triBase K r + (K - r) = triBase K (r + 1) := (triBase_succ K r).symm
      rw [hnext]
      show travLoop f (List.range' (triBase K (r + 1)) (triBase K K - triBase K (r + 1)))
          (stateFor K r) (rowFold f K r a) = chunkFold f K (m + 1) r a
      rcases Nat.eq_zero_or_pos m with hm | hm
      · subst hm
        have hz : triBase K K - triBase K (r + 1) = 0 := by
          have : r + 1 = K := by omega
          simp [this]
        rw [hz]
        simp [travLoop, chunkFold]
      · have hr1K : r + 1 < K := by omega
        have hpos : 0 < triBase K K - triBase K (r + 1) := by
          have h1 : triBase K (r + 1) < triBase K (r + 2) := triBase_strict K hr1K
          have h2 : triBase K (r + 2) ≤ triBase K K := triBase_mono K (by omega)
          omega
        obtain ⟨len, hlen'⟩ : ∃ l, triBase K K - triBase K (r + 1) = l + 1 :=
          ⟨triBase K K - triBase K (r + 1) - 1, by omega⟩
        have hswitch :
            travLoop f (List.range' (triBase K (r + 1)) (triBase K K - triBase K (r + 1)))
              (stateFor K r) (rowFold f K r a) =
            travLoop f (List.range' (triBase K (r + 1)) (triBase K K - triBase K (r + 1)))
              (stateFor K (r + 1)) (rowFold f K r a) := by
          rw [hlen', List.range'_succ, travLoop, travLoop, stepState_cross K r hr1K,
            stepState_stay K (r + 1) hr1K]
        rw [hswitch]
        have := ih (r + 1) (rowFold f K r a) (by omega)
        rw [this]
        rfl
    · simp only [stateFor]
      rw [triBase_succ]

/-! What the factor-building loop writes. -/

theorem foldl_factorRow (params : List ℚ) (K r : Nat) :
    ∀ (len i₀ : Nat) (M : Nat → Nat → ℚ) (x y : Nat), triBase K r ≤ i₀ →
      ((List.range' i₀ len).foldl (fun a i => factorWriter params K i (stateFor K r) a) M) x y =
        if x = r ∧ r + i₀ - triBase K r ≤ y ∧ y < r + i₀ - triBase K r + len then
          params.getD (K + (triBase K r + (y - r))) 0
        else M x y := by
  intro len
  induction len with
  | zero =>
    intro i₀ M x y h
    simp only [List.range'_zero, List.foldl_nil]
    rw [if_neg]
    omega
  | succ len ih =>
    intro i₀ M x y h
    rw [List.range'_succ, List.foldl_cons, ih (i₀ + 1) _ x y (by omega)]
    simp only [factorWriter, stateFor, updEntry]
    split_ifs with h1 h2 h3 <;> try rfl
    all_goals try (exfalso; omega)
    all_goals
      have e : K + i₀ = K + (triBase K r + (y - r)) := by omega
    all_goals rw [e]

theorem chunkFold_factor (params : List ℚ) (K : Nat) :
    ∀ (m r : Nat) (M : Nat → Nat → ℚ) (x y : Nat), r + m = K →
      chunkFold (factorWriter params K) K m r M x y =
        if r ≤ x ∧ x ≤ y ∧ y < K then params.getD (K + (triBase K x + (y - x))) 0
        else M x y := by
  intro m
  induction m with
  | zero =>
    intro r M x y h
    simp only [chunkFold]
    rw [if_neg]
    omega
  | succ m ih =>
    intro r M x y h
    show chunkFold (factorWriter params K) K m (r + 1) (rowFold (factorWriter params K) K r M) x y = _
    rw [ih (r + 1) _ x y (by omega)]
    simp only [rowFold]
    rw [foldl_factorRow params K r (K - r) (triBase K r) M x y le_rfl]
    have hc : r + triBase K r - triBase K r = r := by omega
    rw [hc]
    split_ifs with h1 h2 h3 <;> try rfl
    all_goals try (exfalso; omega)
    all_goals
      obtain ⟨hx, -⟩ := h3
    all_goals subst hx
    all_goals rfl

theorem SetupCholeskyFactor_char (params : List ℚ) (K : Nat) (pd : PrivateData)
    (hdim : pd.cholesky_factor_dimension = K)
    (hent : pd.num_cholesky_factor_entries = K * (K + 1) / 2) (x y : Nat) :
    (SetupCholeskyFactor_ params pd).cholesky_factor x y =
      (if x ≤ y ∧ y < K then params.getD (K + (triBase K x + (y - x))) 0 else 0) := by
  have hfac : (SetupCholeskyFactor_ params pd).cholesky_factor =
      travLoop (factorWriter params K) (List.range (K * (K + 1) / 2))
        { limit := K, add := K - 1, row_num := 0, start := 0 } (fun _ _ => 0) := by
    simp only [SetupCholeskyFactor_, hdim, hent]
  rw [hfac]
  have hstate : ({ limit := K, add := K - 1, row_num := 0, start := 0 } : TravState) =
      stateFor K 0 := by
    simp [stateFor, triBase]
  have hrange : List.range (K * (K + 1) / 2) =
      List.range' (triBase K 0) (triBase K K - triBase K 0) := by
    simp [triBase, triBase_self, List.range_eq_range']
  rw [hstate, hrange, travLoop_chunkFold (factorWriter params K) K K 0 _ (by omega),
    chunkFold_factor params K K 0 _ x y (by omega)]
  simp

/-! Pointwise facts about `List.set`, phrased for `getD`. -/

theorem getD_set_ne {α : Type} (l : List α) (i j : Nat) (a d : α) (h : i ≠ j) :
    (l.set i a).getD j d = l.getD j d := by
  simp [List.getD_eq_getElem?_getD, List.getElem?_set_ne h]

theorem getD_set_self {α : Type} (l : List α) (i : Nat) (a d : α) (h : i < l.length) :
    (l.set i a).getD i d = a := by
  simp [List.getD_eq_getElem?_getD, List.getElem?_set_self h]

/-! What the `Init` loop writes into the two layout tables. -/

theorem foldl_tableRow_len (K r : Nat) :
    ∀ (len i₀ : Nat) (p : List Nat × List Nat),
      (((List.range' i₀ len).foldl (fun a i => tableWriter K i (stateFor K r) a) p).1.length =
          p.1.length) ∧
      (((List.range' i₀ len).foldl (fun a i => tableWriter K i (stateFor K r) a) p).2.length =
          p.2.length) := by
  intro len
  induction len with
  | zero => intro i₀ p; simp
  | succ len ih =>
    intro i₀ p
    rw [List.range'_succ, List.foldl_cons]
    have h := ih (i₀ + 1) (tableWriter K i₀ (stateFor K r) p)
    refine ⟨?_, ?_⟩
    · rw [h.1]; simp [tableWriter]
    · rw [h.2]; simp [tableWriter]

theorem foldl_tableRow_preserve (K r : Nat) :
    ∀ (len i₀ : Nat) (p : List Nat × List Nat) (q d : Nat),
      (q < K + i₀ ∨ K + i₀ + len ≤ q) →
      (((List.range' i₀ len).foldl (fun a i => tableWriter K i (stateFor K r) a) p).1.getD q d =
          p.1.getD q d) ∧
      (((List.range' i₀ len).foldl (fun a i => tableWriter K i (stateFor K r) a) p).2.getD q d =
          p.2.getD q d) := by
  intro len
  induction len with
  | zero => intro i₀ p q d _; simp
  | succ len ih =>
    intro i₀ p q d hq
    rw [List.range'_succ, List.foldl_cons]
    have h1 := ih (i₀ + 1) (tableWriter K i₀ (stateFor K r) p) q d (by omega)
    refine ⟨?_, ?_⟩
    · rw [h1.1]
      simp only [tableWriter]
      exact getD_set_ne _ _ _ _ _ (by omega)
    · rw [h1.2]
      simp only [tableWriter]
      exact getD_set_ne _ _ _ _ _ (by omega)

theorem foldl_tableRow_write (K r : Nat) :
    ∀ (len i₀ : Nat) (p : List Nat × List Nat) (i d₁ d₂ : Nat),
      i₀ ≤ i → i < i₀ + len → K + i < p.1.length → K + i < p.2.length →
      (((List.range' i₀ len).foldl (fun a i => tableWriter K i (stateFor K r) a) p).1.getD
          (K + i) d₁ = r) ∧
      (((List.range' i₀ len).foldl (fun a i => tableWriter K i (stateFor K r) a) p).2.getD
          (K + i) d₂ = K + triBase K r) := by
  intro len
  induction len with
  | zero => intro i₀ p i d₁ d₂ h1 h2 _ _; omega
  | succ len ih =>
    intro i₀ p i d₁ d₂ h1 h2 hl1 hl2
    rw [List.range'_succ, List.foldl_cons]
    rcases Nat.eq_or_lt_of_le h1 with he | hlt
    · subst he
      have hpre := foldl_tableRow_preserve K r len (i₀ + 1)
        (tableWriter K i₀ (stateFor K r) p) (K + i₀) d₁ (Or.inl (by omega))
      have hpre2 := foldl_tableRow_preserve K r len (i₀ + 1)
        (tableWriter K i₀ (stateFor K r) p) (K + i₀) d₂ (Or.inl (by omega))
      refine ⟨?_, ?_⟩
      · rw [hpre.1]
        simp only [tableWriter]
        exact getD_set_self _ _ _ _ (by simpa using hl1)
      · rw [hpre2.2]
        simp only [tableWriter]
        have : (stateFor K r).start = triBase K r := rfl
        rw [this]
        exact getD_set_self _ _ _ _ (by simpa using hl2)
    · exact ih (i₀ + 1) (tableWriter K i₀ (stateFor K r) p) i d₁ d₂ (by omega) (by omega)
        (by simpa [tableWriter] using hl1) (by simpa [tableWriter] using hl2)

theorem chunkFold_table_len (K : Nat) :
    ∀ (m r : Nat) (p : List Nat × List Nat),
      ((chunkFold (tableWriter K) K m r p).1.length = p.1.length) ∧
      ((chunkFold (tableWriter K) K m r p).2.length = p.2.length) := by
  intro m
  induction m with
  | zero => intro r p; exact ⟨rfl, rfl⟩
  | succ m ih =>
    intro r p
    have h1 := ih (r + 1) (rowFold (tableWriter K) K r p)
    have h2 := foldl_tableRow_len K r (K - r) (triBase K r) p
    exact ⟨h1.1.trans h2.1, h1.2.trans h2.2⟩

theorem chunkFold_table_preserve (K : Nat) :
    ∀ (m r : Nat) (p : List Nat × List Nat) (q d : Nat), q < K + triBase K r →
      ((chunkFold (tableWriter K) K m r p).1.getD q d = p.1.getD q d) ∧
      ((chunkFold (tableWriter K) K m r p).2.getD q d = p.2.getD q d) := by
  intro m
  induction m with
  | zero => intro r p q d _; exact ⟨rfl, rfl⟩
  | succ m ih =>
    intro r p q d hq
    have hmono : triBase K r ≤ triBase K (r + 1) := triBase_mono K (by omega)
    have h1 := ih (r + 1) (rowFold (tableWriter K) K r p) q d (by omega)
    have h2 := foldl_tableRow_preserve K r (K - r) (triBase K r) p q d (Or.inl (by omega))
    exact ⟨h1.1.trans h2.1, h1.2.trans h2.2⟩

theorem chunkFold_table_write (K : Nat) :
    ∀ (m r x i : Nat) (p : List Nat × List Nat) (d₁ d₂ : Nat),
      r + m = K → r ≤ x → x < K → triBase K x ≤ i → i < triBase K (x + 1) →
      K + i < p.1.length → K + i < p.2.length →
      ((chunkFold (tableWriter K) K m r p).1.getD (K + i) d₁ = x) ∧
      ((chunkFold (tableWriter K) K m r p).2.getD (K + i) d₂ = K + triBase K x) := by
  intro m
  induction m with
  | zero =>
    intro r x i p d₁ d₂ h hrx hxK hi1 hi2 _ _
    omega
  | succ m ih =>
    intro r x i p d₁ d₂ h hrx hxK hi1 hi2 hl1 hl2
    rcases Nat.eq_or_lt_of_le hrx with he | hlt
    · subst he
      show ((chunkFold (tableWriter K) K m (r + 1) (rowFold (tableWriter K) K r p)).1.getD
          (K + i) d₁ = r) ∧ _
      have hpres := chunkFold_table_preserve K m (r + 1)
        (rowFold (tableWriter K) K r p) (K + i) d₁ (by rw [triBase_succ] at hi2 ⊢; omega)
      have hpres2 := chunkFold_table_preserve K m (r + 1)
        (rowFold (tableWriter K) K r p) (K + i) d₂ (by rw [triBase_succ] at hi2 ⊢; omega)
      have hwr := foldl_tableRow_write K r (K - r) (triBase K r) p i d₁ d₂ hi1
        (by rw [triBase_succ] at hi2; omega) hl1 hl2
      exact ⟨hpres.1.trans hwr.1, hpres2.2.trans hwr.2⟩

    · show ((chunkFold (tableWriter K) K m (r + 1) (rowFold (tableWriter K) K r p)).1.getD
          (K + i) d₁ = x) ∧ _
      have hlen := foldl_tableRow_len K r (K - r) (triBase K r) p
      exact ih (r + 1) x i (rowFold (tableWriter K) K r p) d₁ d₂ (by omega) (by omega) hxK
        hi1 hi2 (lt_of_lt_of_eq hl1 hlen.1.symm) (lt_of_lt_of_eq hl2 hlen.2.symm)

/-- Which row of the triangular walk a slot index belongs to. -/
theorem slot_row (K : Nat) :
    ∀ (m x : Nat), x + m = K → ∀ i, triBase K x ≤ i → i < triBase K K →
      ∃ r, x ≤ r ∧ r < K ∧ triBase K r ≤ i ∧ i < triBase K (r + 1) := by
  intro m
  induction m with
  | zero =>
    intro x h i hi1 hi2
    exfalso
    have : x = K := by omega
    subst this
    omega
  | succ m ih =>
    intro x h i hi1 hi2
    rcases Nat.lt_or_ge i (triBase K (x + 1)) with hlt | hge
    · exact ⟨x, le_rfl, by omega, hi1, hlt⟩
    · obtain ⟨r, h1, h2, h3, h4⟩ := ih (x + 1) (by omega) i hge hi2
      exact ⟨r, by omega, h2, h3, h4⟩

/-- The layout tables built by `Init [K]`: for a slot `i` lying in row `x`
of the triangular walk, `nonzero_column_indices[K + i] = x` and
`start_indices[K + i] = K + triBase K x`. -/
theorem Init_tables (K x i : Nat) (hx : x < K)
    (hi1 : triBase K x ≤ i) (hi2 : i < triBase K (x + 1)) :
    ((Init [K]).2.nonzero_column_indices.getD (K + i) 0 = x) ∧
    ((Init [K]).2.start_indices.getD (K + i) 0 = K + triBase K x) := by
  have hhead : ([K] : List Nat).headD 0 = K := rfl
  have htbl : (Init [K]).2.nonzero_column_indices =
      (travLoop (tableWriter K) (List.range (K * (K + 1) / 2))
        { limit := K, add := K - 1, row_num := 0, start := 0 }
        (List.replicate (K * (K + 3) / 2) 0, List.replicate (K * (K + 3) / 2) 0)).1 := rfl
  have htbl2 : (Init [K]).2.start_indices =
      (travLoop (tableWriter K) (List.range (K * (K + 1) / 2))
        { limit := K, add := K - 1, row_num := 0, start := 0 }
        (List.replicate (K * (K + 3) / 2) 0, List.replicate (K * (K + 3) / 2) 0)).2 := rfl
  have hstate : ({ limit := K, add := K - 1, row_num := 0, start := 0 } : TravState) =
      stateFor K 0 := by
    simp [stateFor, triBase]
  have hrange : List.range (K * (K + 1) / 2) =
      List.range' (triBase K 0) (triBase K K - triBase K 0) := by
    simp [triBase, triBase_self, List.range_eq_range']
  have hiK : i < triBase K K := lt_of_lt_of_le hi2 (triBase_mono K (by omega))
  have hlen : K + i < (List.replicate (K * (K + 3) / 2) (0 : Nat)).length := by
    rw [List.length_replicate, num_parameters_split, ← triBase_self]
    omega
  rw [htbl, htbl2, hstate, hrange,
    travLoop_chunkFold (tableWriter K) K K 0 _ (by omega)]
  exact chunkFold_table_write K K 0 x i _ 0 0 (by omega) (by omega) hx hi1 hi2 hlen hlen

/-! Lengths of the layout tables are preserved by the `Init` loop. -/

theorem travLoop_table_len (dim : Nat) :
    ∀ (is : List Nat) (s : TravState) (p : List Nat × List Nat),
      ((travLoop (tableWriter dim) is s p).1.length = p.1.length) ∧
      ((travLoop (tableWriter dim) is s p).2.length = p.2.length) := by
  intro is
  induction is with
  | nil => intro s p; exact ⟨rfl, rfl⟩
  | cons i is ih =>
    intro s p
    have h := ih (stepState i s) (tableWriter dim i (stepState i s) p)
    refine ⟨h.1.trans ?_, h.2.trans ?_⟩ <;> simp [tableWriter]

/-! Indexing into the row-major packing of an upper-triangular factor. -/

theorem rowEntries_length (fac : Nat → Nat → ℚ) (r : Nat) :
    ∀ (len c : Nat), (rowEntries fac r len c).length = len := by
  intro len
  induction len with
  | zero => intro c; rfl
  | succ len ih => intro c; simp [rowEntries, ih]

theorem rowEntries_getD (fac : Nat → Nat → ℚ) (r : Nat) :
    ∀ (len c j : Nat), j < len → (rowEntries fac r len c).getD j 0 = fac r (c + j) := by
  intro len
  induction len with
  | zero => intro c j h; omega
  | succ len ih =>
    intro c j h
    cases j with
    | zero => simp [rowEntries]
    | succ j =>
      have hih := ih (c + 1) j (by omega)
      simp only [rowEntries, List.getD_cons_succ]
      rw [hih]
      congr 1
      omega

theorem packTail_getD (fac : Nat → Nat → ℚ) (K : Nat) :
    ∀ (m r x y : Nat), r + m = K → r ≤ x → x ≤ y → y < K →
      (packTailAux fac K m r).getD (triBase K x - triBase K r + (y - x)) 0 = fac x y := by
  intro m
  induction m with
  | zero => intro r x y h h1 h2 h3; omega
  | succ m ih =>
    intro r x y h h1 h2 h3
    show (rowEntries fac r (K - r) r ++ packTailAux fac K m (r + 1)).getD _ 0 = _
    rcases Nat.eq_or_lt_of_le h1 with he | hlt
    · subst he
      have hidx : triBase K r - triBase K r + (y - r) = y - r := by omega
      rw [hidx, List.getD_append _ _ _ _ (by rw [rowEntries_length]; omega),
        rowEntries_getD fac r (K - r) r (y - r) (by omega)]
      congr 1
      omega
    · have hmono : triBase K (r + 1) ≤ triBase K x := triBase_mono K hlt
      have hsucc : triBase K (r + 1) = triBase K r + (K - r) := triBase_succ K r
      have hge : (rowEntries fac r (K - r) r).length ≤
          triBase K x - triBase K r + (y - x) := by
        rw [rowEntries_length]; omega
      rw [List.getD_append_right _ _ _ _ hge, rowEntries_length]
      have hidx : triBase K x - triBase K r + (y - x) - (K - r) =
          triBase K x - triBase K (r + 1) + (y - x) := by omega
      rw [hidx]
      exact ih (r + 1) x y (by omega) hlt h2 h3

theorem packParams_getD (K : Nat) (mean : List ℚ) (fac : Nat → Nat → ℚ)
    (hm : mean.length = K) (x y : Nat) (hx : x ≤ y) (hy : y < K) :
    (packParams K mean fac).getD (K + (triBase K x + (y - x))) 0 = fac x y := by
  unfold packParams
  rw [List.getD_append_right _ _ _ _ (by omega : mean.length ≤ K + (triBase K x + (y - x)))]
  have h0 : triBase K 0 = 0 := rfl
  have hidx : K + (triBase K x + (y - x)) - mean.length =
      triBase K x - triBase K 0 + (y - x) := by omega
  rw [hidx]
  exact packTail_getD fac K K 0 x y (by omega) (by omega) hx hy

/-! The modelled solve fails exactly on a zero diagonal entry. -/

theorem backSubstFun_none (U : Nat → Nat → ℚ) (b : Nat → ℚ) (n : Nat) :
    ∀ m, (∃ k, k < m ∧ U (n - (k + 1)) (n - (k + 1)) = 0) →
      backSubstFun U b n m = none := by
  intro m
  induction m with
  | zero =>
    intro h
    obtain ⟨k, hk, -⟩ := h
    omega
  | succ m ih =>
    intro h
    obtain ⟨k, hk, hz⟩ := h
    by_cases hkm : k < m
    · have hrec := ih ⟨k, hkm, hz⟩
      simp only [backSubstFun, hrec]
    · have hk' : k = m := by omega
      subst hk'
      cases hbs : backSubstFun U b n k with
      | none => simp only [backSubstFun, hbs]
      | some x =>
        simp only [backSubstFun, hbs]
        rw [if_pos hz]

theorem backSubst_zero_diag (U : Nat → Nat → ℚ) (b : Nat → ℚ) (n i : Nat)
    (h1 : i < n) (h2 : U i i = 0) : backSubst U b n = none := by
  have hz : U (n - (n - 1 - i + 1)) (n - (n - 1 - i + 1)) = 0 := by
    have e : n - (n - 1 - i + 1) = i := by omega
    rw [e]
    exact h2
  have h := backSubstFun_none U b n n ⟨n - 1 - i, by omega, hz⟩
  simp [backSubst, h]

/-! The successful precompute only replaces the cached solution. -/

theorem precompute_shape (params beta : List ℚ) (pd pd' : PrivateData)
    (h : SamplingAccumulatePrecompute params beta pd = some pd') :
    pd' = { pd with cached_solution := pd'.cached_solution } := by
  simp only [SamplingAccumulatePrecompute] at h
  cases hb : backSubst pd.cholesky_factor (fun j => beta.getD j 0 - params.getD j 0)
      pd.cholesky_factor_n with
  | none =>
    rw [hb] at h
    exact absurd h (by simp)
  | some x =>
    rw [hb] at h
    injection h with h
    subst h
    rfl

/-! Concrete facts for the spec's K = 1 scenario. -/

theorem backSubst_one (U : Nat → Nat → ℚ) (b : Nat → ℚ) (h : U 0 0 ≠ 0) :
    backSubst U b 1 = some [(b 0 - 0) / U 0 0] := by
  simp [backSubst, backSubstFun, h, List.range_succ]

theorem precompute_one (params beta : List ℚ) (pd : PrivateData)
    (hn : pd.cholesky_factor_n = 1) (h : pd.cholesky_factor 0 0 ≠ 0) :
    SamplingAccumulatePrecompute params beta pd =
      some { pd with cached_solution :=
        [(beta.getD 0 0 - params.getD 0 0) / pd.cholesky_factor 0 0] } := by
  simp only [SamplingAccumulatePrecompute, hn]
  rw [backSubst_one pd.cholesky_factor _ h]
  norm_num

theorem pdK1_factor : pdK1.cholesky_factor 0 0 = 2 := rfl

theorem pdK1_n : pdK1.cholesky_factor_n = 1 := rfl

theorem pdK1_precompute : SamplingAccumulatePrecompute [0, 2] [2] pdK1 = some pdK1s := by
  rw [precompute_one [0, 2] [2] pdK1 pdK1_n (by rw [pdK1_factor]; norm_num)]
  have hval : (([2] : List ℚ).getD 0 0 - ([0, 2] : List ℚ).getD 0 0) /
      pdK1.cholesky_factor 0 0 = 1 := by
    rw [pdK1_factor]
    norm_num
  rw [hval]
  rfl

theorem pdK1z_precompute : SamplingAccumulatePrecompute [0, 2] [0] pdK1 = some pdK1z := by
  rw [precompute_one [0, 2] [0] pdK1 pdK1_n (by rw [pdK1_factor]; norm_num)]
  have hval : (([0] : List ℚ).getD 0 0 - ([0, 2] : List ℚ).getD 0 0) /
      pdK1.cholesky_factor 0 0 = 0 := by
    rw [pdK1_factor]
    norm_num
  rw [hval]
  rfl

theorem pdK1_draw : DrawBeta pdK1 [0, 2] (fun _ => 1) = [2] := by
  have h2 : pdK1.cholesky_factor 0 0 = 2 := pdK1_factor
  simp [DrawBeta, pdK1_n, h2, List.range_succ]

theorem packEx : packParams 2 [1, 2] facEx = [1, 2, 3, 4, 5] := rfl

/-- A successful precompute leaves every field except the cached solution
untouched. -/
theorem precompute_frame (params beta : List ℚ) (pd pd' : PrivateData)
    (h : SamplingAccumulatePrecompute params beta pd = some pd') :
    pd'.cholesky_factor_dimension = pd.cholesky_factor_dimension ∧
    pd'.num_cholesky_factor_entries = pd.num_cholesky_factor_entries ∧
    pd'.nonzero_column_indices = pd.nonzero_column_indices ∧
    pd'.start_indices = pd.start_indices ∧
    pd'.cholesky_factor = pd.cholesky_factor ∧
    pd'.cholesky_factor_n = pd.cholesky_factor_n := by
  have hs := precompute_shape params beta pd pd' h
  exact ⟨congrArg (fun q => q.cholesky_factor_dimension) hs,
    congrArg (fun q => q.num_cholesky_factor_entries) hs,
    congrArg (fun q => q.nonzero_column_indices) hs,
    congrArg (fun q => q.start_indices) hs,
    congrArg (fun q => q.cholesky_factor) hs,
    congrArg (fun q => q.cholesky_factor_n) hs⟩

/-- Unfolding of the gradient accessor in the factor block
(`row ≥ beta.length`). -/
theorem grad_lower (pd : PrivateData) (params beta : List ℚ) (row col : Nat)
    (h : ¬ row < beta.length) :
    AttributeGradientWithRespectToParameter pd params beta row col =
      if pd.nonzero_column_indices.getD row 0 = col then
        pd.cached_solution.getD
          (row - pd.start_indices.getD row 0 + pd.nonzero_column_indices.getD row 0) 0
      else 0 := by
  simp only [AttributeGradientWithRespectToParameter, if_neg h]

/-! The claims. -/

/-- C1: in a context set up for dimension `K` with a precomputed cached
solution, for every `row` in `[K, K*(K+3)/2)` and `col` in `[0, K)` the
gradient accessor returns 0.0 when `col` differs from
`nonzero_column_indices[row]`, and returns
`cached_solution[row - start_indices[row] + nonzero_column_indices[row]]`
when `col` equals it. -/
theorem claim1_factor_block_gradient (K : Nat) (params beta : List ℚ)
    (pd' : PrivateData) (hK : 1 ≤ K) (hb : beta.length = K)
    (hpre : SamplingAccumulatePrecompute params beta
      (SetupDistribution params (Init [K]).2) = some pd')
    (row col : Nat) (hr1 : K ≤ row) (hr2 : row < K * (K + 3) / 2) (hc : col < K) :
    (col ≠ pd'.nonzero_column_indices.getD row 0 →
      AttributeGradientWithRespectToParameter pd' params beta row col = 0) ∧
    (col = pd'.nonzero_column_indices.getD row 0 →
      AttributeGradientWithRespectToParameter pd' params beta row col =
        pd'.cached_solution.getD
          (row - pd'.start_indices.getD row 0 +
            pd'.nonzero_column_indices.getD row 0) 0) := by
  have hrow : ¬ row < beta.length := by omega
  constructor
  · intro hne
    have hnz : ¬ (pd'.nonzero_column_indices.getD row 0 = col) := fun hh => hne hh.symm
    rw [grad_lower pd' params beta row col hrow, if_neg hnz]
  · intro heq
    subst heq
    rw [grad_lower pd' params beta row _ hrow, if_pos rfl]

/-- Witness for C1: the spec's K = 1 scenario at (row 1, col 0). -/
theorem claim1_witness :
    AttributeGradientWithRespectToParameter pdK1s [0, 2] [2] 1 0 =
      pdK1s.cached_solution.getD
        (1 - pdK1s.start_indices.getD 1 0 + pdK1s.nonzero_column_indices.getD 1 0) 0 :=
  (claim1_factor_block_gradient 1 [0, 2] [2] pdK1s (by norm_num) rfl
    pdK1_precompute 1 0 le_rfl (by norm_num) (by norm_num)).2 rfl

/-- C2: packing a mean of length `K` and an upper-triangular factor into a
parameter vector and running `SetupDistribution` reproduces exactly that
factor: strictly-lower entries are zero and each upper entry equals the
packed value. -/
theorem claim2_factor_roundtrip (K : Nat) (mean : List ℚ) (fac : Nat → Nat → ℚ)
    (hK : 1 ≤ K) (hm : mean.length = K) (x y : Nat) (hx : x < K) (hy : y < K) :
    (SetupDistribution (packParams K mean fac) (Init [K]).2).cholesky_factor x y =
      if x ≤ y then fac x y else 0 := by
  show (SetupCholeskyFactor_ (packParams K mean fac) (Init [K]).2).cholesky_factor x y = _
  rw [SetupCholeskyFactor_char (packParams K mean fac) K (Init [K]).2 rfl rfl x y]
  by_cases hxy : x ≤ y
  · rw [if_pos ⟨hxy, hy⟩, if_pos hxy]
    exact packParams_getD K mean fac hm x y hxy hy
  · rw [if_neg (fun hcon => hxy hcon.1), if_neg hxy]

/-- Witness for C2: the spec's K = 2 example — parameters
`[1, 2, 3, 4, 5]` build the factor `[[3, 4], [0, 5]]`. -/
theorem claim2_witness :
    (SetupDistribution [1, 2, 3, 4, 5] (Init [2]).2).cholesky_factor 0 0 = 3 ∧
    (SetupDistribution [1, 2, 3, 4, 5] (Init [2]).2).cholesky_factor 0 1 = 4 ∧
    (SetupDistribution [1, 2, 3, 4, 5] (Init [2]).2).cholesky_factor 1 0 = 0 ∧
    (SetupDistribution [1, 2, 3, 4, 5] (Init [2]).2).cholesky_factor 1 1 = 5 := by
  have h00 := claim2_factor_roundtrip 2 [1, 2] facEx (by norm_num) rfl 0 0
    (by norm_num) (by norm_num)
  have h01 := claim2_factor_roundtrip 2 [1, 2] facEx (by norm_num) rfl 0 1
    (by norm_num) (by norm_num)
  have h10 := claim2_factor_roundtrip 2 [1, 2] facEx (by norm_num) rfl 1 0
    (by norm_num) (by norm_num)
  have h11 := claim2_factor_roundtrip 2 [1, 2] facEx (by norm_num) rfl 1 1
    (by norm_num) (by norm_num)
  rw [packEx] at h00 h01 h10 h11
  exact ⟨by simpa [facEx] using h00, by simpa [facEx] using h01,
    by simpa [facEx] using h10, by simpa [facEx] using h11⟩

/-- C3: in the mean block (`row < K`, `col < K`) the gradient accessor is
the identity matrix, regardless of the context, parameters or cache. -/
theorem claim3_mean_block_identity (pd : PrivateData) (params beta : List ℚ)
    (row col : Nat) (h1 : row < beta.length) (h2 : col < beta.length) :
    AttributeGradientWithRespectToParameter pd params beta row col =
      if row = col then 1 else 0 := by
  simp [AttributeGradientWithRespectToParameter, h1]

/-- Witness for C3 at K = 2, rows 0 and 1 against column 0. -/
theorem claim3_witness :
    AttributeGradientWithRespectToParameter (Init [2]).2 [] [5, 7] 0 0 = 1 ∧
    AttributeGradientWithRespectToParameter (Init [2]).2 [] [5, 7] 1 0 = 0 := by
  have ha := claim3_mean_block_identity (Init [2]).2 [] [5, 7] 0 0 (by simp) (by simp)
  have hb := claim3_mean_block_identity (Init [2]).2 [] [5, 7] 1 0 (by simp) (by simp)
  exact ⟨by simpa using ha, by simpa using hb⟩

/-- C4 counterexample: with `beta` equal to the mean (K = 1, parameters
`[0, 2]`, `beta = [0]`) the cached solution is `[0]`, and then row 1 has
NO column with a nonzero gradient, refuting the claimed existence of
exactly one nonzero column. -/
theorem claim4_counterexample :
    SamplingAccumulatePrecompute [0, 2] [0] pdK1 = some pdK1z ∧
    1 ≤ 1 ∧ 1 < 1 * (1 + 3) / 2 ∧
    ¬ (∃! col : Nat, col < 1 ∧
        AttributeGradientWithRespectToParameter pdK1z [0, 2] [0] 1 col ≠ 0) := by
  refine ⟨pdK1z_precompute, le_rfl, by norm_num, ?_⟩
  rintro ⟨col, ⟨hc, hne⟩, -⟩
  have hcol : col = 0 := by omega
  subst hcol
  exact hne rfl

/-- C4 (amended): for every factor row there is exactly one distinguished
column in `[0, K)` — `nonzero_column_indices[row]` — at which the gradient
equals the corresponding cached-solution entry; at every other column in
`[0, K)` the gradient is exactly 0.0.  (The distinguished value may itself
be zero, so "exactly one nonzero column" need not hold literally.) -/
theorem claim4_unique_column (K : Nat) (params beta : List ℚ) (pd' : PrivateData)
    (hK : 1 ≤ K) (hb : beta.length = K)
    (hpre : SamplingAccumulatePrecompute params beta
      (SetupDistribution params (Init [K]).2) = some pd')
    (row : Nat) (hr1 : K ≤ row) (hr2 : row < K * (K + 3) / 2) :
    pd'.nonzero_column_indices.getD row 0 < K ∧
    AttributeGradientWithRespectToParameter pd' params beta row
        (pd'.nonzero_column_indices.getD row 0) =
      pd'.cached_solution.getD
        (row - pd'.start_indices.getD row 0 +
          pd'.nonzero_column_indices.getD row 0) 0 ∧
    (∀ col, col < K → col ≠ pd'.nonzero_column_indices.getD row 0 →
      AttributeGradientWithRespectToParameter pd' params beta row col = 0) := by
  have hrow : ¬ row < beta.length := by omega
  have htab : pd'.nonzero_column_indices = (Init [K]).2.nonzero_column_indices :=
    (precompute_frame params beta _ pd' hpre).2.2.1
  have hnP : K * (K + 3) / 2 = K + triBase K K := by
    rw [num_parameters_split, triBase_self]
  obtain ⟨r, hr0, hrK, hi1, hi2⟩ := slot_row K K 0 (by omega) (row - K)
    (Nat.zero_le _) (by omega)
  have htabs := Init_tables K r (row - K) hrK hi1 hi2
  have hKi : K + (row - K) = row := by omega
  rw [hKi] at htabs
  have h1 : pd'.nonzero_column_indices.getD row 0 = r := by
    rw [htab]
    exact htabs.1
  refine ⟨by rw [h1]; exact hrK, ?_, ?_⟩
  · rw [grad_lower pd' params beta row _ hrow, if_pos rfl]
  · intro col hcK hcne
    have hnz : ¬ (pd'.nonzero_column_indices.getD row 0 = col) := fun hh => hcne hh.symm
    rw [grad_lower pd' params beta row col hrow, if_neg hnz]

/-- Witness for C4 (amended) at the spec's K = 1 scenario, row 1. -/
theorem claim4_witness :
    pdK1s.nonzero_column_indices.getD 1 0 < 1 ∧
    AttributeGradientWithRespectToParameter pdK1s [0, 2] [2] 1
        (pdK1s.nonzero_column_indices.getD 1 0) =
      pdK1s.cached_solution.getD
        (1 - pdK1s.start_indices.getD 1 0 + pdK1s.nonzero_column_indices.getD 1 0) 0 ∧
    (∀ col, col < 1 → col ≠ pdK1s.nonzero_column_indices.getD 1 0 →
      AttributeGradientWithRespectToParameter pdK1s [0, 2] [2] 1 col = 0) :=
  claim4_unique_column 1 [0, 2] [2] pdK1s le_rfl rfl pdK1_precompute 1 le_rfl (by norm_num)

/-- C5 counterexample: for K = 1 the out-of-range query (row 1, col 1)
does not fail fast — the code has no range check and the call returns the
value 0.0 through the structural-zero branch instead of raising an
error. -/
theorem claim5_counterexample :
    AttributeGradientWithRespectToParameter pdK1s [0, 2] [2] 1 1 = 0 := rfl

/-- C5 (amended): gradient queries perform no range checking: a factor-row
query whose column differs from the row's nonzero column — in particular
any out-of-range column — returns 0.0 rather than failing. -/
theorem claim5_no_range_check (pd : PrivateData) (params beta : List ℚ)
    (row col : Nat) (h1 : beta.length ≤ row)
    (h2 : pd.nonzero_column_indices.getD row 0 ≠ col) :
    AttributeGradientWithRespectToParameter pd params beta row col = 0 := by
  have hrow : ¬ row < beta.length := by omega
  rw [grad_lower pd params beta row col hrow, if_neg h2]

/-- Witness for C5 (amended) at K = 1, out-of-range column 1. -/
theorem claim5_witness :
    AttributeGradientWithRespectToParameter pdK1z [0, 2] [0] 1 1 = 0 :=
  claim5_no_range_check pdK1z [0, 2] [0] 1 1 (by simp) (by decide)

/-- C6: a zero diagonal entry of the stored triangular factor makes the
solve inside `SamplingAccumulatePrecompute` fail (the modelled
`arma::solve` failure, the spec's SingularFactorError), so no value is
returned and nothing is cached. -/
theorem claim6_singular_none (params beta : List ℚ) (pd : PrivateData) (i : Nat)
    (h1 : i < pd.cholesky_factor_n) (h2 : pd.cholesky_factor i i = 0) :
    SamplingAccumulatePrecompute params beta pd = none := by
  simp only [SamplingAccumulatePrecompute]
  rw [backSubst_zero_diag pd.cholesky_factor _ pd.cholesky_factor_n i h1 h2]

/-- Witness for C6: K = 1 with `c = 0.0` (parameters `[0, 0]`). -/
theorem claim6_witness :
    SamplingAccumulatePrecompute [0, 0] [1] (SetupDistribution [0, 0] (Init [1]).2) =
      none :=
  claim6_singular_none [0, 0] [1] (SetupDistribution [0, 0] (Init [1]).2) 0
    (by decide) rfl

/-- C7: `Init` returns `K*(K+3)/2` parameters, records `K*(K+1)/2`
Cholesky-factor entries, and both layout tables have length
`K*(K+3)/2`. -/
theorem claim7_init_counts (K : Nat) (hK : 1 ≤ K) :
    (Init [K]).1 = K * (K + 3) / 2 ∧
    (Init [K]).2.num_cholesky_factor_entries = K * (K + 1) / 2 ∧
    (Init [K]).2.nonzero_column_indices.length = K * (K + 3) / 2 ∧
    (Init [K]).2.start_indices.length = K * (K + 3) / 2 := by
  have h := travLoop_table_len K (List.range (K * (K + 1) / 2))
    { limit := K, add := K - 1, row_num := 0, start := 0 }
    (List.replicate (K * (K + 3) / 2) 0, List.replicate (K * (K + 3) / 2) 0)
  exact ⟨rfl, rfl, h.1.trans (by simp), h.2.trans (by simp)⟩

/-- Witness for C7 at K = 3. -/
theorem claim7_witness :
    (Init [3]).1 = 9 ∧ (Init [3]).2.num_cholesky_factor_entries = 6 ∧
    (Init [3]).2.nonzero_column_indices.length = 9 ∧
    (Init [3]).2.start_indices.length = 9 := by
  obtain ⟨h1, h2, h3, h4⟩ := claim7_init_counts 3 (by norm_num)
  norm_num at h1 h2 h3 h4
  exact ⟨h1, h2, h3, h4⟩

/-- C8: the spec's K = 1 end-to-end scenario with parameters
`[mu = 0, c = 2]`: an injected standard-normal source fixed at 1.0 makes
`DrawBeta` return `[2]`; precompute with `beta = [2]` caches the solution
`[1]` of `2 * x = 2 - 0`; then the gradient is 1.0 at (0, 0) and 1.0 at
(1, 0). -/
theorem claim8_end_to_end :
    (Init [1]).1 = 2 ∧
    DrawBeta pdK1 [0, 2] (fun _ => 1) = [2] ∧
    SamplingAccumulatePrecompute [0, 2] [2] pdK1 = some pdK1s ∧
    pdK1s.cached_solution = [1] ∧
    AttributeGradientWithRespectToParameter pdK1s [0, 2] [2] 0 0 = 1 ∧
    AttributeGradientWithRespectToParameter pdK1s [0, 2] [2] 1 0 = 1 :=
  ⟨rfl, pdK1_draw, pdK1_precompute, rfl, rfl, rfl⟩

/-- C9: `SetupDistribution` modifies only the factor matrix and
`SamplingAccumulatePrecompute` modifies only the cached solution; the
dimension, the entry count and both layout tables built by `Init` are
invariant under both. -/
theorem claim9_frame :
    (∀ (params : List ℚ) (pd : PrivateData),
      (SetupDistribution params pd).cholesky_factor_dimension =
          pd.cholesky_factor_dimension ∧
      (SetupDistribution params pd).num_cholesky_factor_entries =
          pd.num_cholesky_factor_entries ∧
      (SetupDistribution params pd).nonzero_column_indices =
          pd.nonzero_column_indices ∧
      (SetupDistribution params pd).start_indices = pd.start_indices ∧
      (SetupDistribution params pd).cached_solution = pd.cached_solution) ∧
    (∀ (params beta : List ℚ) (pd pd' : PrivateData),
      SamplingAccumulatePrecompute params beta pd = some pd' →
      pd'.cholesky_factor_dimension = pd.cholesky_factor_dimension ∧
      pd'.num_cholesky_factor_entries = pd.num_cholesky_factor_entries ∧
      pd'.nonzero_column_indices = pd.nonzero_column_indices ∧
      pd'.start_indices = pd.start_indices ∧
      pd'.cholesky_factor = pd.cholesky_factor ∧
      pd'.cholesky_factor_n = pd.cholesky_factor_n) := by
  constructor
  · intro params pd
    exact ⟨rfl, rfl, rfl, rfl, rfl⟩
  · intro params beta pd pd' h
    exact precompute_frame params beta pd pd' h

/-- Witness for C9: the K = 1 scenario, one field from each part. -/
theorem claim9_witness :
    (SetupDistribution [0, 2] (Init [1]).2).start_indices = (Init [1]).2.start_indices ∧
    pdK1s.nonzero_column_indices = pdK1.nonzero_column_indices :=
  ⟨(claim9_frame.1 [0, 2] (Init [1]).2).2.2.2.1,
   (claim9_frame.2 [0, 2] [2] pdK1 pdK1s pdK1_precompute).2.2.1⟩

/-- C10: `Init` reads only element 0 of its input vector: two non-empty
inputs agreeing there produce identical outputs. -/
theorem claim10_init_head_only (l l' : List Nat) (h1 : l ≠ []) (h2 : l' ≠ [])
    (h : l.headD 0 = l'.headD 0) : Init l = Init l' := by
  simp only [Init, h]

/-- Witness for C10: `[1, 5]` and `[1, 7]` agree on element 0. -/
theorem claim10_witness : Init [1, 5] = Init [1, 7] :=
  claim10_init_head_only [1, 5] [1, 7] (by decide) (by decide) rfl

end MixedLogitDCM
